import Mathlib

/-!
Verification of the MIDI-to-buzzer melody pipeline
(`tools/midi_to_buzzer.py` and `tools/simplify_header.py`).

The Python sources are shallowly embedded here:

* Python `int` is modelled as `ℤ` (arbitrary precision in both).
* The only float arithmetic in the pipeline is division followed by
  `round` or `int`-truncation.  Each such site divides two integer-valued
  quantities (or an integer by the rational `unit = quarter_ms / denom`),
  so we model the exact rational value of the quotient and Python 3's
  `round` (banker's rounding, round-half-to-even) on it, implemented over
  the integer numerator/denominator pair so that everything evaluates by
  kernel reduction.  On every tie the quotient has denominator 2, which a
  binary double represents exactly, so the exact-rational model agrees
  with CPython on all inputs of realistic size.
* Python lists are `List`, dicts used by the reducer are association
  lists with lookup/overwrite/pop (the insertion order a dict also keeps
  is never observed by this code).
-/

/-- Python 3 `round(a / b)` for integers (or an integer-valued ratio)
`a / b` with `b ≠ 0`: nearest integer, ties to even (banker's rounding).
`b = 0` returns junk `0`; the Python code raises `ZeroDivisionError`
there, which is modelled separately by `simplify_notesE`. -/
def pyRound2 (a b : ℤ) : ℤ :=
  let q := Int.fdiv a b
  let r2 := 2 * (a - q * b)
  if 0 < b then
    if r2 < b then q else if b < r2 then q + 1 else if q % 2 = 0 then q else q + 1
  else if b < 0 then
    if b < r2 then q else if r2 < b then q + 1 else if q % 2 = 0 then q else q + 1
  else 0

/-- Rounding half away from zero of `a / b` (`b ≠ 0`).  This is NOT what
the code does; it is the rounding mode the specification claims
(`round half-away-from-zero`), defined here only to be compared against
`ticks_to_ms`. -/
def roundHalfAwayDiv (a b : ℤ) : ℤ :=
  let q := Int.fdiv a b
  let r2 := 2 * (a - q * b)
  if 0 < b then
    if r2 < b then q else if b < r2 then q + 1 else if 0 ≤ q then q + 1 else q
  else if b < 0 then
    if b < r2 then q else if r2 < b then q + 1 else if 0 ≤ q then q + 1 else q
  else 0

/-- Python list slice `l[:k]` for an arbitrary integer `k`
(negative indices count from the end, clamped at the borders). -/
def pySliceTo (k : ℤ) (l : List α) : List α :=
  l.take (if 0 ≤ k then k.toNat else ((l.length : ℤ) + k).toNat)

/-- Python list slice `l[k:]` for an arbitrary integer `k`. -/
def pySliceFrom (k : ℤ) (l : List α) : List α :=
  l.drop (if 0 ≤ k then k.toNat else ((l.length : ℤ) + k).toNat)

/-- Embedding of `ticks_to_ms(ticks, tempo, ticks_per_beat)`
(midi_to_buzzer.py, lines 48-67): `micros = ticks * tempo / ticks_per_beat`
then `int(round(micros / 1000.0))`.  The two successive divisions equal
the single exact ratio `(ticks * tempo) / (ticks_per_beat * 1000)`, and
Python's `round` on it is `pyRound2`.  The callers always pass an integer
`tempo`, so the `tempo is None` defaulting branch is never taken and is
not modelled. -/
def ticks_to_ms (ticks tempo ticks_per_beat : ℤ) : ℤ :=
  pyRound2 (ticks * tempo) (ticks_per_beat * 1000)

/-- A merged MIDI message, as consumed by the event loop of
`extract_monophonic` (only the fields the loop reads). `noteOn` with
velocity 0 is treated as a note end, as in the source. -/
inductive Msg where
  | noteOn (note : ℕ) (vel : ℕ)
  | noteOff (note : ℕ)
  | setTempo (t : ℤ)
  | other
deriving DecidableEq

/-- A closed note interval `(note, start_tick, end_tick, velocity)`
collected by the reducer loop (the `results` entries). -/
structure ClosedNote where
  pitch : ℕ
  startT : ℤ
  endT : ℤ
  vel : ℕ
deriving DecidableEq

/-- State of the `extract_monophonic` event loop: the `active` dict
(pitch -> (on_tick, velocity)), the running `tempo`, and the collected
`results`. -/
structure ReduceState where
  active : List (ℕ × ℤ × ℕ)
  tempo : ℤ
  results : List ClosedNote
deriving DecidableEq

/-- Dict lookup `active.get(p)` on the association-list model. -/
def alistGet (p : ℕ) : List (ℕ × ℤ × ℕ) → Option (ℤ × ℕ)
  | [] => none
  | (k, v) :: rest => if k = p then some v else alistGet p rest

/-- Dict insert/overwrite `active[p] = v`. -/
def alistPut (p : ℕ) (v : ℤ × ℕ) : List (ℕ × ℤ × ℕ) → List (ℕ × ℤ × ℕ)
  | [] => [(p, v)]
  | (k, w) :: rest => if k = p then (p, v) :: rest else (k, w) :: alistPut p v rest

/-- Dict removal `active.pop(p)` (the key is unique by construction). -/
def alistRemove (p : ℕ) : List (ℕ × ℤ × ℕ) → List (ℕ × ℤ × ℕ)
  | [] => []
  | (k, w) :: rest => if k = p then rest else (k, w) :: alistRemove p rest

/-- The note-off path of the loop body (`note_off`, or `note_on` with
velocity 0): `if msg.note in active: pop it and append the closed
interval to results`; otherwise the event is ignored. -/
def closeNote (p : ℕ) (t : ℤ) (st : ReduceState) : ReduceState :=
  match alistGet p st.active with
  | some sv => ⟨alistRemove p st.active, st.tempo, st.results ++ [⟨p, sv.1, t, sv.2⟩]⟩
  | none => st

/-- One iteration of the `for abs_tick, msg in events` loop of
`extract_monophonic` (midi_to_buzzer.py, lines 102-113). -/
def reduceStep (st : ReduceState) (ev : ℤ × Msg) : ReduceState :=
  match ev.2 with
  | .setTempo x => ⟨st.active, x, st.results⟩
  | .noteOn p v => if 0 < v then ⟨alistPut p (ev.1, v) st.active, st.tempo, st.results⟩
                   else closeNote p ev.1 st
  | .noteOff p => closeNote p ev.1 st
  | .other => st

/-- The tempo payload of an event, if it is a `set_tempo` message. -/
def tempoOf (ev : ℤ × Msg) : Option ℤ :=
  match ev.2 with
  | .setTempo x => some x
  | _ => none

/-- Stable insertion into a list sorted by `key` (an element is placed
before the first strictly-not-smaller entry, so equal keys keep their
relative order, as Python's stable `list.sort` does). -/
def sIns (key : α → ℤ) (a : α) : List α → List α
  | [] => [a]
  | b :: bs => if key a ≤ key b then a :: b :: bs else b :: sIns key a bs

/-- Stable sort by `key`, modelling Python's `list.sort(key=...)`. -/
def sSort (key : α → ℤ) : List α → List α
  | [] => []
  | a :: as => sIns key a (sSort key as)

/-- Split a list into maximal runs of adjacent elements equivalent under
`same`.  Applied to the start-sorted results this is exactly the
`by_start` grouping of the source (groups iterated in ascending start
order, each group in list order). -/
def runs (same : α → α → Bool) : List α → List (List α)
  | [] => []
  | a :: as =>
    match runs same as with
    | [] => [[a]]
    | [] :: gs => [a] :: [] :: gs
    | (b :: g) :: gs => if same a b then (a :: b :: g) :: gs else [a] :: (b :: g) :: gs

/-- The comparison used by `max(group, key=lambda x: (x[3], x[0]))`:
lexicographic on (velocity, pitch). -/
def chordLt (a b : ClosedNote) : Bool :=
  decide (a.vel < b.vel ∨ (a.vel = b.vel ∧ a.pitch < b.pitch))

/-- Python's `max` with a key: scan keeping the current best, replacing
it only when a strictly greater key appears (so the first of equal
maxima wins, as in CPython). -/
def pyMax (lt : α → α → Bool) : α → List α → α
  | best, [] => best
  | best, x :: xs => pyMax lt (if lt best x then x else best) xs

/-- `max(group, key=lambda x: (x[3], x[0]))` on a chord group; `none`
only on the empty list, which the grouping never produces. -/
def chooseChord : List ClosedNote → Option ClosedNote
  | [] => none
  | a :: as => some (pyMax chordLt a as)

/-- Embedding of `extract_monophonic` from the merged, time-ordered
event stream onward (midi_to_buzzer.py, lines 98-134): run the event
loop, sort the closed intervals by start tick, group equal start ticks,
pick one winner per group, sort again, and return the
`(note, start, end)` timeline together with the final `tempo` value. -/
def extract_monophonic (events : List (ℤ × Msg)) : List (ℕ × ℤ × ℤ) × ℤ :=
  let fin := events.foldl reduceStep ⟨[], 500000, []⟩
  let sortedR := sSort (fun c => c.startT) fin.results
  let groups := runs (fun a b => a.startT == b.startT) sortedR
  let timeline := groups.filterMap chooseChord
  let timeline2 := sSort (fun c => c.startT) timeline
  (timeline2.map (fun c => (c.pitch, c.startT, c.endT)), fin.tempo)

/-- One step of the `for note, s, e in events` loop of
`build_note_array`: state is `(current_tick, notes)`. -/
def bnaStep (noteFreq : ℕ → ℤ) (tempo tpb : ℤ) (st : ℤ × List (ℤ × ℤ))
    (ev : ℕ × ℤ × ℤ) : ℤ × List (ℤ × ℤ) :=
  let acc := if st.1 < ev.2.1 then
      (let r := ticks_to_ms (ev.2.1 - st.1) tempo tpb
       if 0 < r then st.2 ++ [(0, r)] else st.2)
    else st.2
  (ev.2.2, acc ++ [(noteFreq ev.1, ticks_to_ms (ev.2.2 - ev.2.1) tempo tpb)])

/-- Embedding of `build_note_array(events, tempo, ticks_per_beat)`
(midi_to_buzzer.py, lines 137-164).  The single `tempo` argument is used
for every conversion.  The pitch-to-frequency mapper `note_to_freq` is
passed as a parameter: it is a pure float computation
(`440 * 2 ** ((n - 69) / 12)`) none of whose values any claim here
depends on. -/
def build_note_array (noteFreq : ℕ → ℤ) (events : List (ℕ × ℤ × ℤ))
    (tempo tpb : ℤ) : List (ℤ × ℤ) :=
  match events with
  | [] => []
  | e0 :: _ => (events.foldl (bnaStep noteFreq tempo tpb) (e0.2.1, [])).2

/-- The rate-lookup contract stated by the specification (section 4.1):
the most recent tempo change at or before the given tick, with default
500000 before the first entry.  This follows the spec's words, not the
code, and exists only to be compared with what the code does. -/
def specRateAt (changes : List (ℤ × ℤ)) (tick : ℤ) : ℤ :=
  ((changes.filter (fun c => c.1 ≤ tick)).map Prod.snd).getLastD 500000

/-- The quantization of one merged duration by `simplify_notes`:
`q = int(round(d / unit))`, `if q <= 0: q = 1`, `d2 = int(q * unit)`.
With `unit = num/den` in lowest terms, `d / unit = (d * den) / num`
exactly, and `int(...)` truncates toward zero (`Int.tdiv`). -/
def quantizeDur (unit : ℚ) (d : ℤ) : ℤ :=
  let q := pyRound2 (d * (unit.den : ℤ)) unit.num
  let q1 := if q ≤ 0 then 1 else q
  Int.tdiv (q1 * unit.num) (unit.den : ℤ)

/-- One step of the merge pass, on the reversed accumulator (the list
head is the Python `merged[-1]`): collapse an event into the previous
one when frequencies agree. -/
def mergeStep (acc : List (ℤ × ℤ)) (fd : ℤ × ℤ) : List (ℤ × ℤ) :=
  match acc with
  | [] => [fd]
  | (lf, ld) :: rest => if lf = fd.1 then (lf, ld + fd.2) :: rest else fd :: (lf, ld) :: rest

/-- The merge pass of `simplify_notes`: collapse adjacent events with
equal frequency, summing durations. -/
def mergePass (notes : List (ℤ × ℤ)) : List (ℤ × ℤ) :=
  (notes.foldl mergeStep []).reverse

/-- One step of the quantize/absorb pass, on the reversed accumulator:
quantize the duration; if the result is shorter than `min_ms`, add it to
the previous kept entry, or start a rest entry when there is none;
otherwise keep the event. -/
def quantStep (unit : ℚ) (min_ms : ℤ) (acc : List (ℤ × ℤ)) (fd : ℤ × ℤ) : List (ℤ × ℤ) :=
  let d2 := quantizeDur unit fd.2
  if d2 < min_ms then
    match acc with
    | [] => [(0, d2)]
    | (lf, ld) :: rest => (lf, ld + d2) :: rest
  else (fd.1, d2) :: acc

/-- The quantize/absorb pass of `simplify_notes`. -/
def quantPass (unit : ℚ) (min_ms : ℤ) (l : List (ℤ × ℤ)) : List (ℤ × ℤ) :=
  (l.foldl (quantStep unit min_ms) []).reverse

/-- `keep[-1] = (keep[-1][0], keep[-1][1] + t)` on a nonempty list, and
`[(0, t)]` on the empty one — exactly the tail-merging arm of the count
bound. -/
def addToLast (t : ℤ) : List (ℤ × ℤ) → List (ℤ × ℤ)
  | [] => [(0, t)]
  | [fd] => [(fd.1, fd.2 + t)]
  | fd :: rest => fd :: addToLast t rest

/-- Sum of the durations of an event list. -/
def sumD (l : List (ℤ × ℤ)) : ℤ := (l.map Prod.snd).sum

/-- The count-bound pass of `simplify_notes`: if more than `max_notes`
entries remain, keep `quant[:max_notes-1]` and fold the whole tail's
time into the last kept entry (or into a fresh rest if nothing is kept).
The slices use Python semantics, so a negative `max_notes - 1` counts
from the end. -/
def capPass (max_notes : ℤ) (quant : List (ℤ × ℤ)) : List (ℤ × ℤ) :=
  if max_notes < (quant.length : ℤ) then
    addToLast (sumD (pySliceFrom (max_notes - 1) quant)) (pySliceTo (max_notes - 1) quant)
  else quant

/-- Embedding of `simplify_notes(notes, unit_ms, min_ms, max_notes)`
(simplify_header.py, lines 43-95): merge, quantize/absorb, count-bound.
`midi_to_buzzer.simplify_notes` is the same algorithm with
`unit = quarter_ms / denom`; see `simplify_notes_midi`.  `unit = 0`
makes Python raise `ZeroDivisionError` instead of returning; the
returned value of this total model is only meaningful for `unit ≠ 0`
(see `simplify_notesE` for the error behaviour). -/
def simplify_notes (notes : List (ℤ × ℤ)) (unit : ℚ) (min_ms max_notes : ℤ) : List (ℤ × ℤ) :=
  if notes = [] then []
  else capPass max_notes (quantPass unit min_ms (mergePass notes))

/-- Embedding of `midi_to_buzzer.simplify_notes(notes, quarter_ms,
denom, min_ms, max_notes)` (lines 203-263): identical pipeline with
`unit = quarter_ms / denom`. -/
def simplify_notes_midi (notes : List (ℤ × ℤ)) (quarter_ms : ℚ) (denom : ℤ)
    (min_ms max_notes : ℤ) : List (ℤ × ℤ) :=
  simplify_notes notes (quarter_ms / (denom : ℚ)) min_ms max_notes

/-- `simplify_notes` with its failure behaviour made explicit: on a
nonempty input with `unit = 0`, Python raises `ZeroDivisionError` at the
first `d / unit_ms` of the quantization pass — after the merge pass ran,
not at entry.  Every other input (including negative `unit` and negative
`max_notes`) returns normally. -/
def simplify_notesE (notes : List (ℤ × ℤ)) (unit : ℚ) (min_ms max_notes : ℤ) :
    Except Unit (List (ℤ × ℤ)) :=
  if notes = [] then .ok []
  else if unit = 0 then .error ()
  else .ok (capPass max_notes (quantPass unit min_ms (mergePass notes)))

/-- Character class of the regex `\s` restricted to the characters that
can occur on one line of the emitted header (space and tab). -/
def isSpaceCh (c : Char) : Bool := decide (c = ' ' ∨ c = '\t')

/-- Character class of the regex `\d`. -/
def isDigitCh (c : Char) : Bool := decide ('0' ≤ c ∧ c ≤ '9')

/-- Numeric value of a run of decimal digit characters, most significant
first (what `int(m.group(i))` computes on a regex `\d+` capture). -/
def digitsVal (ds : List Char) : ℕ :=
  ds.foldl (fun a c => 10 * a + (c.toNat - 48)) 0

/-- Match of the regex `\{\s*(\d+)\s*,\s*(\d+)\s*\},` anchored at the
head of the character list, returning the two captured numbers.  The
digit runs are maximal, as with a greedy `\d+` (no backtracking can
succeed where the maximal run fails, since a digit can satisfy neither
`\s*` nor the following literal). -/
def matchEntryAt (cs : List Char) : Option (ℕ × ℕ) :=
  match cs with
  | [] => none
  | c :: rest =>
    if c = '\x7b' then
      let r1 := rest.dropWhile isSpaceCh
      let d1 := r1.takeWhile isDigitCh
      if d1.isEmpty then none else
      match (r1.dropWhile isDigitCh).dropWhile isSpaceCh with
      | [] => none
      | c2 :: r3 =>
        if c2 = ',' then
          let r4 := r3.dropWhile isSpaceCh
          let d2 := r4.takeWhile isDigitCh
          if d2.isEmpty then none else
          match (r4.dropWhile isDigitCh).dropWhile isSpaceCh with
          | c3 :: c4 :: _ =>
            if c3 = '\x7d' ∧ c4 = ',' then some (digitsVal d1, digitsVal d2) else none
          | _ => none
        else none
    else none

/-- `re.search` of the entry pattern on one line: the leftmost position
where `matchEntryAt` succeeds. -/
def searchEntry : List Char → Option (ℕ × ℕ)
  | [] => none
  | c :: cs =>
    match matchEntryAt (c :: cs) with
    | some r => some r
    | none => searchEntry cs

/-- Embedding of `parse_header` (simplify_header.py, lines 16-40): scan
each line of the file with the entry regex and collect the captured
`(freq, dur)` pairs as Python integers. -/
def parse_header (lines : List (List Char)) : List (ℤ × ℤ) :=
  lines.filterMap (fun l => (searchEntry l).map (fun fd => ((fd.1 : ℤ), (fd.2 : ℤ))))

/-- The decimal digit character for a digit value. -/
def digitCh (d : ℕ) : Char := Char.ofNat (48 + d)

/-- Decimal rendering of a natural number (what `str` produces). -/
def decChars (n : ℕ) : List Char :=
  if n = 0 then ['0'] else ((Nat.digits 10 n).map digitCh).reverse

/-- Decimal rendering of a Python integer. -/
def intChars (i : ℤ) : List Char :=
  if i < 0 then '-' :: decChars i.natAbs else decChars i.toNat

/-- The duration clamping of `emit_header`: negative durations become 0,
durations above 0xFFFF become 0xFFFF. -/
def clampDur (d : ℤ) : ℤ :=
  let d1 := if d < 0 then 0 else d
  if 65535 < d1 then 65535 else d1

/-- One emitted array entry line, `  {freq, dur},` with the duration
clamped (emit_header, lines 115-121). -/
def entryLine (fd : ℤ × ℤ) : List Char :=
  ' ' :: ' ' :: '\x7b' ::
    (intChars fd.1 ++ ',' :: ' ' :: (intChars (clampDur fd.2) ++ ['\x7d', ',']))

/-- The fixed lines `emit_header` writes before the entries (multi-line
writes split at their newlines, since `parse_header` reads per line). -/
def headerLines : List (List Char) := [
  "/* Auto-generated simplified melody */".toList,
  "#ifndef BADAPPLE_MELODY_SIMPLE_H".toList,
  "#define BADAPPLE_MELODY_SIMPLE_H".toList,
  "".toList,
  "#include \"main.h\"".toList,
  "".toList,
  "typedef struct \x7b".toList,
  "    uint16_t freq;".toList,
  "    uint16_t duration;".toList,
  "\x7d Note_t;".toList,
  "".toList,
  "static const Note_t melody[] = \x7b".toList]

/-- The fixed lines `emit_header` writes after the entries. -/
def footerLines : List (List Char) := [
  "\x7d;".toList,
  "".toList,
  "static const size_t melody_len = sizeof(melody)/sizeof(melody[0]);".toList,
  "".toList,
  "#endif /* BADAPPLE_MELODY_SIMPLE_H */".toList]

/-- Embedding of `emit_header(notes, out_path)` (simplify_header.py,
lines 98-124), as the list of lines of the written file. -/
def emit_header (notes : List (ℤ × ℤ)) : List (List Char) :=
  headerLines ++ notes.map entryLine ++ footerLines

/-- The domain of the round-trip claim: non-negative frequency and a
duration within the unsigned 16-bit range (so clamping is the
identity). -/
def validEntry (fd : ℤ × ℤ) : Bool :=
  decide (0 ≤ fd.1 ∧ 0 ≤ fd.2 ∧ fd.2 ≤ 65535)

/-- The concrete event stream used to exhibit the tempo-rate behaviour:
one note before and one note after a tempo change to 250000 µs/beat at
tick 480. -/
def exC2 : List (ℤ × Msg) :=
  [(0, .noteOn 60 100), (480, .noteOff 60), (480, .setTempo 250000),
   (480, .noteOn 62 100), (960, .noteOff 62)]

/-! ## Basic list lemmas about the quantizer's building blocks -/

theorem sumD_nil : sumD [] = 0 := rfl

theorem sumD_cons (fd : ℤ × ℤ) (l : List (ℤ × ℤ)) : sumD (fd :: l) = fd.2 + sumD l := by
  simp [sumD]

theorem sumD_append (l1 l2 : List (ℤ × ℤ)) : sumD (l1 ++ l2) = sumD l1 + sumD l2 := by
  simp [sumD]

theorem sumD_reverse (l : List (ℤ × ℤ)) : sumD l.reverse = sumD l := by
  simp [sumD, List.sum_reverse]

theorem addToLast_length (t : ℤ) : ∀ l : List (ℤ × ℤ), (addToLast t l).length = max l.length 1
  | [] => by simp [addToLast]
  | [fd] => by simp [addToLast]
  | fd :: x :: rest => by
    have ih := addToLast_length t (x :: rest)
    simp only [addToLast, List.length_cons] at ih ⊢
    omega

theorem sumD_addToLast (t : ℤ) : ∀ l : List (ℤ × ℤ), sumD (addToLast t l) = sumD l + t
  | [] => by simp [addToLast, sumD]
  | [fd] => by simp [addToLast, sumD]
  | fd :: x :: rest => by
    have ih := sumD_addToLast t (x :: rest)
    simp only [addToLast, sumD_cons] at ih ⊢
    omega

theorem mergeStep_length (acc : List (ℤ × ℤ)) (fd : ℤ × ℤ) :
    (mergeStep acc fd).length ≤ acc.length + 1 := by
  rcases acc with _ | ⟨⟨lf, ld⟩, rest⟩
  · simp [mergeStep]
  · by_cases h : lf = fd.1 <;> simp [mergeStep, h]

theorem mergeStep_ne_nil (acc : List (ℤ × ℤ)) (fd : ℤ × ℤ) : mergeStep acc fd ≠ [] := by
  rcases acc with _ | ⟨⟨lf, ld⟩, rest⟩
  · simp [mergeStep]
  · by_cases h : lf = fd.1 <;> simp [mergeStep, h]

theorem quantStep_length (u : ℚ) (m : ℤ) (acc : List (ℤ × ℤ)) (fd : ℤ × ℤ) :
    (quantStep u m acc fd).length ≤ acc.length + 1 := by
  rcases acc with _ | ⟨⟨lf, ld⟩, rest⟩ <;>
    by_cases h : quantizeDur u fd.2 < m <;> simp [quantStep, h]

theorem quantStep_ne_nil (u : ℚ) (m : ℤ) (acc : List (ℤ × ℤ)) (fd : ℤ × ℤ) :
    quantStep u m acc fd ≠ [] := by
  rcases acc with _ | ⟨⟨lf, ld⟩, rest⟩ <;>
    by_cases h : quantizeDur u fd.2 < m <;> simp [quantStep, h]

theorem foldl_mergeStep_length :
    ∀ (l : List (ℤ × ℤ)) (acc : List (ℤ × ℤ)),
      (l.foldl mergeStep acc).length ≤ acc.length + l.length
  | [], acc => by simp
  | x :: xs, acc => by
    rw [List.foldl_cons]
    have h1 := foldl_mergeStep_length xs (mergeStep acc x)
    have h2 := mergeStep_length acc x
    simp only [List.length_cons]
    omega

theorem foldl_quantStep_length (u : ℚ) (m : ℤ) :
    ∀ (l : List (ℤ × ℤ)) (acc : List (ℤ × ℤ)),
      (l.foldl (quantStep u m) acc).length ≤ acc.length + l.length
  | [], acc => by simp
  | x :: xs, acc => by
    rw [List.foldl_cons]
    have h1 := foldl_quantStep_length u m xs (quantStep u m acc x)
    have h2 := quantStep_length u m acc x
    simp only [List.length_cons]
    omega

theorem foldl_mergeStep_ne_nil :
    ∀ (l : List (ℤ × ℤ)) (acc : List (ℤ × ℤ)), acc ≠ [] → l.foldl mergeStep acc ≠ []
  | [], acc, h => by simpa using h
  | x :: xs, acc, h => by
    rw [List.foldl_cons]
    exact foldl_mergeStep_ne_nil xs _ (mergeStep_ne_nil acc x)

theorem foldl_quantStep_ne_nil (u : ℚ) (m : ℤ) :
    ∀ (l : List (ℤ × ℤ)) (acc : List (ℤ × ℤ)), acc ≠ [] → l.foldl (quantStep u m) acc ≠ []
  | [], acc, h => by simpa using h
  | x :: xs, acc, h => by
    rw [List.foldl_cons]
    exact foldl_quantStep_ne_nil u m xs _ (quantStep_ne_nil u m acc x)

theorem mergePass_length (notes : List (ℤ × ℤ)) : (mergePass notes).length ≤ notes.length := by
  have := foldl_mergeStep_length notes []
  simpa [mergePass] using this

theorem quantPass_length (u : ℚ) (m : ℤ) (l : List (ℤ × ℤ)) :
    (quantPass u m l).length ≤ l.length := by
  have := foldl_quantStep_length u m l []
  simpa [quantPass] using this

theorem mergePass_ne_nil (notes : List (ℤ × ℤ)) (h : notes ≠ []) : mergePass notes ≠ [] := by
  rcases notes with _ | ⟨x, xs⟩
  · exact absurd rfl h
  · have : (x :: xs).foldl mergeStep [] ≠ [] := by
      rw [List.foldl_cons]
      exact foldl_mergeStep_ne_nil xs _ (mergeStep_ne_nil [] x)
    simpa [mergePass] using this

theorem quantPass_ne_nil (u : ℚ) (m : ℤ) (l : List (ℤ × ℤ)) (h : l ≠ []) :
    quantPass u m l ≠ [] := by
  rcases l with _ | ⟨x, xs⟩
  · exact absurd rfl h
  · have : (x :: xs).foldl (quantStep u m) [] ≠ [] := by
      rw [List.foldl_cons]
      exact foldl_quantStep_ne_nil u m xs _ (quantStep_ne_nil u m [] x)
    simpa [quantPass] using this

theorem pySlice_append (k : ℤ) (l : List (ℤ × ℤ)) : pySliceTo k l ++ pySliceFrom k l = l := by
  simp [pySliceTo, pySliceFrom]

theorem capPass_sum (n : ℤ) (q : List (ℤ × ℤ)) : sumD (capPass n q) = sumD q := by
  by_cases h : n < (q.length : ℤ)
  · have hsplit := pySlice_append (n - 1) q
    have := sumD_append (pySliceTo (n - 1) q) (pySliceFrom (n - 1) q)
    rw [hsplit] at this
    simp only [capPass, h, if_true, sumD_addToLast]
    omega
  · simp [capPass, h]

theorem capPass_length_le (n : ℤ) (q : List (ℤ × ℤ)) (hq : q ≠ []) :
    (capPass n q).length ≤ q.length := by
  by_cases h : n < (q.length : ℤ)
  · have h1 : (pySliceTo (n - 1) q).length ≤ q.length := by
      simp only [pySliceTo, List.length_take]
      omega
    have h2 : 1 ≤ q.length := by
      rcases q with _ | ⟨x, xs⟩
      · exact absurd rfl hq
      · simp
    simp only [capPass, h, if_true, addToLast_length]
    omega
  · simp [capPass, h]

theorem capPass_length_bound (n : ℤ) (q : List (ℤ × ℤ)) (hn : 1 ≤ n) :
    (capPass n q).length ≤ n.toNat := by
  by_cases h : n < (q.length : ℤ)
  · have h1 : (pySliceTo (n - 1) q).length ≤ (n - 1).toNat := by
      simp only [pySliceTo, if_pos (by omega : (0:ℤ) ≤ n - 1), List.length_take]
      omega
    simp only [capPass, h, if_true, addToLast_length]
    omega
  · simp only [capPass, h, if_false]
    omega

theorem simplify_length_le (notes : List (ℤ × ℤ)) (u : ℚ) (m n : ℤ) :
    (simplify_notes notes u m n).length ≤ notes.length := by
  by_cases h : notes = []
  · simp [simplify_notes, h]
  · have hm := mergePass_length notes
    have hqn := quantPass_ne_nil u m (mergePass notes) (mergePass_ne_nil notes h)
    have hql := quantPass_length u m (mergePass notes)
    have hc := capPass_length_le n (quantPass u m (mergePass notes)) hqn
    simp only [simplify_notes, h, if_false]
    omega

theorem quantStep_sum (u : ℚ) (m : ℤ) (acc : List (ℤ × ℤ)) (fd : ℤ × ℤ) :
    sumD (quantStep u m acc fd) = sumD acc + quantizeDur u fd.2 := by
  rcases acc with _ | ⟨⟨lf, ld⟩, rest⟩ <;>
    by_cases h : quantizeDur u fd.2 < m <;>
      simp [quantStep, h, sumD_cons, sumD] <;> ring

theorem foldl_quantStep_sum (u : ℚ) (m : ℤ) :
    ∀ (l : List (ℤ × ℤ)) (acc : List (ℤ × ℤ)),
      sumD (l.foldl (quantStep u m) acc) =
        sumD acc + (l.map (fun fd => quantizeDur u fd.2)).sum
  | [], acc => by simp
  | x :: xs, acc => by
    rw [List.foldl_cons, foldl_quantStep_sum u m xs _, quantStep_sum]
    simp only [List.map_cons, List.sum_cons]
    ring

theorem quantPass_sum (u : ℚ) (m : ℤ) (l : List (ℤ × ℤ)) :
    sumD (quantPass u m l) = (l.map (fun fd => quantizeDur u fd.2)).sum := by
  rw [quantPass, sumD_reverse, foldl_quantStep_sum]
  simp [sumD]

/-! ## Claim C1 -/

/-- Claim C1, counterexample.  The claim states that the output length is
always at most `max(maximum_count, 1)` and that `maximum_count = 0`
degenerates to a single rest.  With `maximum_count = 0`, the Python
slice `quant[:max_notes-1]` is `quant[:-1]`, which keeps all but ONE
entry: three surviving events yield an output of length 2 > 1, and no
single rest. -/
theorem c1_count_bound_counterexample :
    simplify_notes [(1, 128), (2, 128), (3, 128)] 128 80 0 = [(1, 128), (2, 256)] ∧
      ¬ (simplify_notes [(1, 128), (2, 128), (3, 128)] 128 80 0).length ≤ 1 := by
  constructor
  · decide
  · decide

/-- Claim C1, amended: for `maximum_count ≥ 1` (and a valid
`unit_duration > 0`) the output length is bounded by `maximum_count`;
the degenerate single-rest collapse at `maximum_count = 0` happens only
when at most one event survives the earlier passes, because
`quant[:max_notes-1]` keeps all but one entry when `max_notes = 0`. -/
theorem c1_count_bound_amended (notes : List (ℤ × ℤ)) (u : ℚ) (m n : ℤ)
    (_hu : 0 < u) (hn : 1 ≤ n) :
    (simplify_notes notes u m n).length ≤ n.toNat := by
  by_cases h : notes = []
  · simp [simplify_notes, h]
  · have := capPass_length_bound n (quantPass u m (mergePass notes)) hn
    simpa [simplify_notes, h] using this

/-- Witness for `c1_count_bound_amended` at a concrete input. -/
theorem c1_count_bound_amended_witness :
    (0 : ℚ) < 128 ∧ (1 : ℤ) ≤ 300 ∧
      (simplify_notes [(1, 5)] 128 80 300).length ≤ (300 : ℤ).toNat :=
  ⟨by norm_num, by norm_num,
    c1_count_bound_amended [(1, 5)] 128 80 300 (by norm_num) (by norm_num)⟩

/-! ## Claim C4 -/

/-- Claim C4: time conservation of the quantizer.  The sum of the output
durations equals the sum of the post-quantization durations of the
merged events: an absorbed short event's duration goes to the previous
kept event or to a leading rest, and the count bound folds all tail
durations into the last kept entry, so no duration is dropped. -/
theorem c4_duration_conservation (notes : List (ℤ × ℤ)) (u : ℚ) (m n : ℤ)
    (_hu : 0 < u) :
    sumD (simplify_notes notes u m n) =
      ((mergePass notes).map (fun fd => quantizeDur u fd.2)).sum := by
  by_cases h : notes = []
  · simp [simplify_notes, h, mergePass, sumD]
  · simp only [simplify_notes, h, if_false]
    rw [capPass_sum, quantPass_sum]

/-- Witness for `c4_duration_conservation` at a concrete input. -/
theorem c4_duration_conservation_witness :
    (0 : ℚ) < 50 ∧
      sumD (simplify_notes [(5, 100), (5, 50), (0, 10)] 50 80 300) =
        ((mergePass [(5, 100), (5, 50), (0, 10)]).map
          (fun fd => quantizeDur 50 fd.2)).sum :=
  ⟨by norm_num, c4_duration_conservation [(5, 100), (5, 50), (0, 10)] 50 80 300 (by norm_num)⟩

/-! ## Claim C6 -/

/-- Claim C6, counterexample.  The quantizer is not idempotent: when an
event is absorbed between two events of equal frequency, the output has
two adjacent equal-frequency entries, and a second pass merges them.
Here `simplify([(1,100),(2,10),(1,100)], 50, 80, 300)` yields
`[(1,150),(1,100)]`, but a second pass yields `[(1,250)]`. -/
theorem c6_idempotence_counterexample :
    simplify_notes [(1, 100), (2, 10), (1, 100)] 50 80 300 = [(1, 150), (1, 100)] ∧
      simplify_notes (simplify_notes [(1, 100), (2, 10), (1, 100)] 50 80 300) 50 80 300 ≠
        simplify_notes [(1, 100), (2, 10), (1, 100)] 50 80 300 := by
  constructor
  · decide
  · decide

/-- Claim C6, amended: a second pass of the quantizer need not be the
identity (absorption can leave adjacent equal-frequency events that a
second pass merges), but it never grows the list: the second pass's
output length is bounded by the first pass's. -/
theorem c6_second_pass_amended (notes : List (ℤ × ℤ)) (u : ℚ) (m n : ℤ) :
    (simplify_notes (simplify_notes notes u m n) u m n).length ≤
      (simplify_notes notes u m n).length :=
  simplify_length_le (simplify_notes notes u m n) u m n

/-! ## Claim C8 -/

/-- Claim C8, counterexample.  The claim states that an invalid
configuration (`unit_duration ≤ 0` or `maximum_count < 0`) fails fast
with a configuration error before any processing.  The code performs no
such validation: with `maximum_count = -1` the call returns normally
(here producing `[(0, 128)]` through the negative-slice path). -/
theorem c8_validation_counterexample :
    simplify_notesE [(1, 128)] 128 80 (-1) = .ok [(0, 128)] ∧ (-1 : ℤ) < 0 :=
  ⟨rfl, by norm_num⟩

/-- Claim C8, amended: the quantizer performs no entry validation at
all.  The only failing configuration is `unit_duration = 0` on a
nonempty input, and that failure is a `ZeroDivisionError` raised in the
quantization pass (after merging), not a configuration error at entry;
every other configuration, including negative `unit_duration` and
negative `maximum_count`, is processed without error. -/
theorem c8_no_validation_amended (notes : List (ℤ × ℤ)) (u : ℚ) (m n : ℤ) :
    simplify_notesE notes u m n = .error () ↔ (notes ≠ [] ∧ u = 0) := by
  by_cases h1 : notes = [] <;> by_cases h2 : u = 0 <;>
    simp [simplify_notesE, h1, h2]

/-! ## Claim C5 -/

theorem quantizeDur_intCast (uz d : ℤ) :
    quantizeDur (uz : ℚ) d = (if pyRound2 d uz ≤ 0 then 1 else pyRound2 d uz) * uz := by
  simp [quantizeDur, Rat.num_intCast, Rat.den_intCast, Int.tdiv_one]

theorem if_nonpos_eq_max (q : ℤ) : (if q ≤ 0 then 1 else q) = max 1 q := by
  by_cases h : q ≤ 0 <;> simp [h] <;> omega

theorem quantizeDur_intCast_pos_dvd (uz d : ℤ) (hu : 0 < uz) :
    0 < quantizeDur (uz : ℚ) d ∧ uz ∣ quantizeDur (uz : ℚ) d := by
  rw [quantizeDur_intCast, if_nonpos_eq_max]
  constructor
  · have : (1 : ℤ) ≤ max 1 (pyRound2 d uz) := le_max_left _ _
    nlinarith
  · exact dvd_mul_left uz (max 1 (pyRound2 d uz))

theorem quantStep_inv (uz m : ℤ) (hu : 0 < uz) (acc : List (ℤ × ℤ)) (x : ℤ × ℤ)
    (hacc : ∀ fd ∈ acc, 0 < fd.2 ∧ uz ∣ fd.2) :
    ∀ fd ∈ quantStep (uz : ℚ) m acc x, 0 < fd.2 ∧ uz ∣ fd.2 := by
  intro fd hfd
  have hq := quantizeDur_intCast_pos_dvd uz x.2 hu
  by_cases h : quantizeDur (uz : ℚ) x.2 < m
  · rcases acc with _ | ⟨⟨lf, ld⟩, rest⟩
    · simp only [quantStep, h, if_true, List.mem_singleton] at hfd
      subst hfd
      exact hq
    · simp only [quantStep, h, if_true, List.mem_cons] at hfd
      rcases hfd with rfl | hfd
      · have hl := hacc (lf, ld) (List.mem_cons_self _ _)
        refine ⟨?_, dvd_add hl.2 hq.2⟩
        have h1 := hl.1
        have h2 := hq.1
        omega
      · exact hacc fd (List.mem_cons_of_mem _ hfd)
  · simp only [quantStep, h, if_false, List.mem_cons] at hfd
    rcases hfd with rfl | hfd
    · exact hq
    · exact hacc fd hfd

theorem foldl_quantStep_inv (uz m : ℤ) (hu : 0 < uz) :
    ∀ (l acc : List (ℤ × ℤ)), (∀ fd ∈ acc, 0 < fd.2 ∧ uz ∣ fd.2) →
      ∀ fd ∈ l.foldl (quantStep (uz : ℚ) m) acc, 0 < fd.2 ∧ uz ∣ fd.2
  | [], acc, hacc => hacc
  | x :: xs, acc, hacc => by
    rw [List.foldl_cons]
    exact foldl_quantStep_inv uz m hu xs _ (quantStep_inv uz m hu acc x hacc)

theorem quantPass_inv (uz m : ℤ) (hu : 0 < uz) (l : List (ℤ × ℤ)) :
    ∀ fd ∈ quantPass (uz : ℚ) m l, 0 < fd.2 ∧ uz ∣ fd.2 := by
  intro fd hfd
  rw [quantPass, List.mem_reverse] at hfd
  exact foldl_quantStep_inv uz m hu l [] (by simp) fd hfd

theorem sumD_pos (l : List (ℤ × ℤ)) (h : l ≠ []) (hall : ∀ fd ∈ l, 0 < fd.2) :
    0 < sumD l := by
  rcases l with _ | ⟨x, xs⟩
  · exact absurd rfl h
  · rw [sumD_cons]
    have hx := hall x (List.mem_cons_self _ _)
    have : (0 : ℤ) ≤ sumD xs := by
      refine List.sum_nonneg ?_
      intro y hy
      rw [List.mem_map] at hy
      obtain ⟨fd, hfd, rfl⟩ := hy
      exact le_of_lt (hall fd (List.mem_cons_of_mem _ hfd))
    omega

theorem sumD_dvd (uz : ℤ) (l : List (ℤ × ℤ)) (hall : ∀ fd ∈ l, uz ∣ fd.2) :
    uz ∣ sumD l := by
  refine List.dvd_sum ?_
  intro y hy
  rw [List.mem_map] at hy
  obtain ⟨fd, hfd, rfl⟩ := hy
  exact hall fd hfd

theorem addToLast_inv (uz t : ℤ) (hdvd : uz ∣ t) (ht0 : 0 ≤ t) :
    ∀ l : List (ℤ × ℤ), (∀ fd ∈ l, 0 < fd.2 ∧ uz ∣ fd.2) → (l = [] → 0 < t) →
      ∀ fd ∈ addToLast t l, 0 < fd.2 ∧ uz ∣ fd.2
  | [], _, hnil => by
    intro fd hfd
    simp only [addToLast, List.mem_singleton] at hfd
    subst hfd
    exact ⟨hnil rfl, hdvd⟩
  | [x], hl, _ => by
    intro fd hfd
    simp only [addToLast, List.mem_singleton] at hfd
    subst hfd
    have hx := hl x (List.mem_cons_self _ _)
    exact ⟨by have := hx.1; simp only []; omega, dvd_add hx.2 hdvd⟩
  | x :: y :: rest, hl, _ => by
    intro fd hfd
    simp only [addToLast, List.mem_cons] at hfd
    rcases hfd with rfl | hfd
    · exact hl fd (List.mem_cons_self _ _)
    · exact addToLast_inv uz t hdvd ht0 (y :: rest)
        (fun g hg => hl g (List.mem_cons_of_mem _ hg)) (by simp) fd hfd

theorem capPass_inv (uz : ℤ) (_hu : 0 < uz) (n : ℤ) (q : List (ℤ × ℤ)) (hq : q ≠ [])
    (hall : ∀ fd ∈ q, 0 < fd.2 ∧ uz ∣ fd.2) :
    ∀ fd ∈ capPass n q, 0 < fd.2 ∧ uz ∣ fd.2 := by
  by_cases h : n < (q.length : ℤ)
  · have hqlen : 0 < q.length := List.length_pos.mpr hq
    have htail : pySliceFrom (n - 1) q ≠ [] := by
      have hlt : (if 0 ≤ n - 1 then (n - 1).toNat else ((q.length : ℤ) + (n - 1)).toNat) <
          q.length := by
        by_cases h0 : (0 : ℤ) ≤ n - 1 <;> simp only [h0, if_true, if_false] <;> omega
      rw [pySliceFrom, ← List.length_pos, List.length_drop]
      omega
    have htail_sub : ∀ fd ∈ pySliceFrom (n - 1) q, 0 < fd.2 ∧ uz ∣ fd.2 := by
      intro fd hfd
      exact hall fd (List.drop_subset _ q hfd)
    have hkeep_sub : ∀ fd ∈ pySliceTo (n - 1) q, 0 < fd.2 ∧ uz ∣ fd.2 := by
      intro fd hfd
      exact hall fd (List.take_subset _ q hfd)
    have ht0 : 0 ≤ sumD (pySliceFrom (n - 1) q) :=
      le_of_lt (sumD_pos _ htail (fun fd hfd => (htail_sub fd hfd).1))
    have htd : uz ∣ sumD (pySliceFrom (n - 1) q) :=
      sumD_dvd uz _ (fun fd hfd => (htail_sub fd hfd).2)
    simp only [capPass, h, if_true]
    exact addToLast_inv uz _ htd ht0 _ hkeep_sub
      (fun _ => sumD_pos _ htail (fun fd hfd => (htail_sub fd hfd).1))
  · simp only [capPass, h, if_false]
    exact hall

/-- Claim C5, counterexample.  The claim asserts that every output
duration except possibly the first is a positive multiple of
`unit_duration`.  With the fractional unit `quarter_ms / denom = 500/8 =
62.5` of `midi_to_buzzer.simplify_notes`, the truncation
`int(q * unit)` breaks it: the second output event has duration
`int(3 * 62.5) = 187`, which is no integer multiple of `62.5`. -/
theorem c5_multiple_counterexample :
    simplify_notes_midi [(5, 1000), (7, 190)] 500 8 80 300 = [(5, 1000), (7, 187)] ∧
      ¬ ∃ k : ℤ, 0 < k ∧ ((187 : ℚ) = (k : ℚ) * (500 / 8)) := by
  constructor
  · have hu : ((500 : ℚ) / ((8 : ℤ) : ℚ)) = (⟨125, 2, by decide, by decide⟩ : ℚ) := by
      rw [Rat.mk'_eq_divInt, Rat.divInt_eq_div]
      push_cast
      norm_num
    rw [simplify_notes_midi, hu]
    decide
  · rintro ⟨k, hk, he⟩
    have h2 : (1496 : ℚ) = (k : ℚ) * 500 := by
      field_simp at he
      linarith
    have h3 : (1496 : ℤ) = k * 500 := by exact_mod_cast h2
    omega

/-- Claim C5, amended: the per-event quantization is
`q = round(d / unit)` floored to a minimum of 1 followed by integer
truncation of `q * unit`; when `unit_duration` is a positive INTEGER
(as in `simplify_header.simplify_notes`) the truncation is exact and
every output duration — including the first — is a positive multiple of
`unit_duration`.  For fractional units the multiple-of-unit invariant
fails (see the counterexample). -/
theorem c5_quantize_amended (notes : List (ℤ × ℤ)) (uz m n d : ℤ) (fd : ℤ × ℤ)
    (hu : 0 < uz) (hmem : fd ∈ simplify_notes notes (uz : ℚ) m n) :
    quantizeDur (uz : ℚ) d = max 1 (pyRound2 d uz) * uz ∧ 0 < fd.2 ∧ uz ∣ fd.2 := by
  refine ⟨by rw [quantizeDur_intCast, if_nonpos_eq_max], ?_⟩
  by_cases h : notes = []
  · simp [simplify_notes, h] at hmem
  · simp only [simplify_notes, h, if_false] at hmem
    exact capPass_inv uz hu n _ (quantPass_ne_nil _ m _ (mergePass_ne_nil notes h))
      (quantPass_inv uz m hu _) fd hmem

/-- Witness for `c5_quantize_amended` at a concrete input. -/
theorem c5_quantize_amended_witness :
    (0 : ℤ) < 50 ∧
      ((5 : ℤ), (150 : ℤ)) ∈ simplify_notes [(5, 100), (0, 10)] ((50 : ℤ) : ℚ) 80 300 ∧
      (quantizeDur ((50 : ℤ) : ℚ) 130 = max 1 (pyRound2 130 50) * 50 ∧
        (0 : ℤ) < 150 ∧ (50 : ℤ) ∣ 150) :=
  ⟨by norm_num, by decide,
    c5_quantize_amended [(5, 100), (0, 10)] 50 80 300 130 (5, 150) (by norm_num) (by decide)⟩

/-! ## Claim C2 -/

theorem closeNote_tempo (p : ℕ) (t : ℤ) (st : ReduceState) :
    (closeNote p t st).tempo = st.tempo := by
  rcases h : alistGet p st.active with _ | sv <;> simp [closeNote, h]

theorem reduceStep_tempo (st : ReduceState) (ev : ℤ × Msg) :
    (reduceStep st ev).tempo = ((tempoOf ev).getD st.tempo) := by
  rcases hev : ev.2 with ⟨p, v⟩ | p | x | _
  · by_cases hv : 0 < v <;> simp [reduceStep, tempoOf, hev, hv, closeNote_tempo]
  · simp [reduceStep, tempoOf, hev, closeNote_tempo]
  · simp [reduceStep, tempoOf, hev]
  · simp [reduceStep, tempoOf, hev]

theorem foldl_reduceStep_tempo :
    ∀ (evs : List (ℤ × Msg)) (st : ReduceState),
      (evs.foldl reduceStep st).tempo = (evs.filterMap tempoOf).getLastD st.tempo
  | [], st => by simp
  | ev :: evs, st => by
    rw [List.foldl_cons, foldl_reduceStep_tempo evs _, List.filterMap_cons]
    rcases hev : ev.2 with ⟨p, v⟩ | p | x | _
    · have h1 : tempoOf ev = none := by simp [tempoOf, hev]
      simp only [h1, reduceStep_tempo, Option.getD_none]
    · have h1 : tempoOf ev = none := by simp [tempoOf, hev]
      simp only [h1, reduceStep_tempo, Option.getD_none]
    · have h1 : tempoOf ev = some x := by simp [tempoOf, hev]
      simp only [h1, reduceStep_tempo, Option.getD_some, List.getLastD_cons]
    · have h1 : tempoOf ev = none := by simp [tempoOf, hev]
      simp only [h1, reduceStep_tempo, Option.getD_none]

/-- Claim C2, counterexample.  The claim states that each tick delta is
converted with the most recent tempo change at or before it (default
500000 before the first change).  In the code, `extract_monophonic`
returns only the LAST tempo seen, and `build_note_array` converts every
delta with that single value: with a change to 250000 at tick 480, the
first note (ticks 0-480, before the change) is converted to 250 ms,
while the claimed rate-in-force at tick 0 is the default 500000, which
would give 500 ms. -/
theorem c2_tempo_rate_counterexample :
    (build_note_array (fun _ => 0) (extract_monophonic exC2).1
        (extract_monophonic exC2).2 480).map Prod.snd = [250, 250] ∧
      specRateAt [(480, 250000)] 0 = 500000 ∧
      ticks_to_ms 480 500000 480 = 500 ∧
      ((250 : ℤ) ≠ 500) :=
  ⟨by decide, by decide, by decide, by decide⟩

/-- Claim C2, amended: the pipeline does not use a per-delta tempo map.
`extract_monophonic` returns the tempo of the LAST `set_tempo` event in
the stream (500000 when there is none), and `build_note_array` converts
every delta — before and after any tempo change — with that single
rate. -/
theorem c2_last_tempo_amended (events : List (ℤ × Msg)) :
    (extract_monophonic events).2 = (events.filterMap tempoOf).getLastD 500000 := by
  simp only [extract_monophonic]
  exact foldl_reduceStep_tempo events ⟨[], 500000, []⟩

/-! ## Claim C3 -/

theorem pyRound2_spec (a b : ℤ) (hb : 0 < b) :
    |(a : ℚ) / (b : ℚ) - (pyRound2 a b : ℚ)| ≤ 1 / 2 ∧
      (|(a : ℚ) / (b : ℚ) - (pyRound2 a b : ℚ)| = 1 / 2 → 2 ∣ pyRound2 a b) := by
  have hbq : (0 : ℚ) < (b : ℚ) := by exact_mod_cast hb
  have hfd : Int.fdiv a b = a / b := Int.fdiv_eq_ediv a (le_of_lt hb)
  set q := a / b with hqdef
  set r := a % b with hrdef
  have hr0 : 0 ≤ r := Int.emod_nonneg a (ne_of_gt hb)
  have hrb : r < b := Int.emod_lt_of_pos a hb
  have hab : b * q + r = a := Int.ediv_add_emod a b
  have hval : (a : ℚ) / b - (q : ℚ) = (r : ℚ) / b := by
    have h1 : (a : ℚ) = (b : ℚ) * q + r := by exact_mod_cast hab.symm
    rw [h1]
    field_simp
  have hpy : pyRound2 a b =
      (if 2 * r < b then q else if b < 2 * r then q + 1
       else if q % 2 = 0 then q else q + 1) := by
    simp only [pyRound2, hfd, if_pos hb]
    have hr : a - q * b = r := by rw [mul_comm q b]; omega
    rw [hr]
  rw [hpy]
  rcases lt_trichotomy (2 * r) b with hc | hc | hc
  · rw [if_pos hc]
    have habs : |(a : ℚ) / b - (q : ℚ)| = (r : ℚ) / b := by
      rw [hval, abs_of_nonneg (div_nonneg (by exact_mod_cast hr0) hbq.le)]
    have hcq : (2 * r : ℚ) < (b : ℚ) := by exact_mod_cast hc
    constructor
    · rw [habs, div_le_iff₀ hbq]
      push_cast at hcq ⊢
      linarith
    · intro heq
      rw [habs] at heq
      have h2 : (2 * r : ℚ) = (b : ℚ) := by
        rw [div_eq_iff hbq.ne'] at heq
        linarith
      have h3 : 2 * r = b := by exact_mod_cast h2
      omega
  · rw [if_neg (by omega), if_neg (by omega)]
    have hhalf : (r : ℚ) / b = 1 / 2 := by
      rw [div_eq_iff hbq.ne']
      have : (2 * r : ℚ) = (b : ℚ) := by exact_mod_cast hc
      linarith
    by_cases hq2 : q % 2 = 0
    · rw [if_pos hq2]
      constructor
      · rw [hval, hhalf, abs_le]
        norm_num
      · intro _
        exact Int.dvd_of_emod_eq_zero hq2
    · rw [if_neg hq2]
      have h2 : (a : ℚ) / b - ((q + 1 : ℤ) : ℚ) = (r : ℚ) / b - 1 := by
        push_cast
        have := hval
        push_cast at this
        linarith
      constructor
      · rw [h2, hhalf, abs_le]
        norm_num
      · intro _
        omega
  · rw [if_neg (by omega), if_pos hc]
    have h2 : (a : ℚ) / b - ((q + 1 : ℤ) : ℚ) = (r : ℚ) / b - 1 := by
      push_cast
      have := hval
      push_cast at this
      linarith
    have hlow : 1 / 2 < (r : ℚ) / b := by
      rw [lt_div_iff₀ hbq]
      have : (b : ℚ) < 2 * r := by exact_mod_cast hc
      linarith
    have hhigh : (r : ℚ) / b < 1 := by
      rw [div_lt_one hbq]
      exact_mod_cast hrb
    constructor
    · rw [h2, abs_of_nonpos (by linarith)]
      linarith
    · intro heq
      rw [h2, abs_of_nonpos (by linarith)] at heq
      have : (r : ℚ) / b = 1 / 2 := by linarith
      linarith

/-- Claim C3, counterexample.  The claim says conversion rounds ties
half away from zero.  Python 3's `round` rounds ties to even: at
`ticks = 1, tempo = 500000, ticks_per_beat = 1000` the exact value is
0.5 ms; the code returns 0 while half-away-from-zero gives 1. -/
theorem c3_rounding_counterexample :
    ticks_to_ms 1 500000 1000 = 0 ∧
      roundHalfAwayDiv (1 * 500000) (1000 * 1000) = 1 ∧
      ticks_to_ms 1 500000 1000 ≠ roundHalfAwayDiv (1 * 500000) (1000 * 1000) :=
  ⟨by decide, by decide, by decide⟩

/-- Claim C3, amended: `ticks_to_ms` returns the nearest integer to
`ticks * tempo / ticks_per_beat / 1000` with ties rounded to the EVEN
neighbour (Python 3 `round`), not half away from zero. -/
theorem c3_round_half_even_amended (t r tpb : ℤ) (htpb : 0 < tpb) :
    |((t * r : ℤ) : ℚ) / (tpb : ℚ) / 1000 - (ticks_to_ms t r tpb : ℚ)| ≤ 1 / 2 ∧
      (|((t * r : ℤ) : ℚ) / (tpb : ℚ) / 1000 - (ticks_to_ms t r tpb : ℚ)| = 1 / 2 →
        2 ∣ ticks_to_ms t r tpb) := by
  have hb : (0 : ℤ) < tpb * 1000 := by positivity
  have hv : ((t * r : ℤ) : ℚ) / (tpb : ℚ) / 1000 =
      ((t * r : ℤ) : ℚ) / ((tpb * 1000 : ℤ) : ℚ) := by
    rw [div_div]
    push_cast
    ring_nf
  rw [ticks_to_ms, hv]
  exact pyRound2_spec (t * r) (tpb * 1000) hb

/-- Witness for `c3_round_half_even_amended` at a concrete input. -/
theorem c3_round_half_even_amended_witness :
    (0 : ℤ) < 480 ∧
      (|((480 * 500000 : ℤ) : ℚ) / ((480 : ℤ) : ℚ) / 1000 -
          (ticks_to_ms 480 500000 480 : ℚ)| ≤ 1 / 2 ∧
        (|((480 * 500000 : ℤ) : ℚ) / ((480 : ℤ) : ℚ) / 1000 -
            (ticks_to_ms 480 500000 480 : ℚ)| = 1 / 2 →
          2 ∣ ticks_to_ms 480 500000 480)) :=
  ⟨by norm_num, c3_round_half_even_amended 480 500000 480 (by norm_num)⟩

/-! ## Claim C7 -/

theorem chordLe_trans {x y z : ClosedNote}
    (h1 : x.vel < y.vel ∨ (x.vel = y.vel ∧ x.pitch ≤ y.pitch))
    (h2 : y.vel < z.vel ∨ (y.vel = z.vel ∧ y.pitch ≤ z.pitch)) :
    x.vel < z.vel ∨ (x.vel = z.vel ∧ x.pitch ≤ z.pitch) := by
  omega

theorem chordLt_true {a b : ClosedNote} (h : chordLt a b = true) :
    a.vel < b.vel ∨ (a.vel = b.vel ∧ a.pitch ≤ b.pitch) := by
  have := of_decide_eq_true h
  omega

theorem chordLt_false {a b : ClosedNote} (h : chordLt a b = false) :
    b.vel < a.vel ∨ (b.vel = a.vel ∧ b.pitch ≤ a.pitch) := by
  have := of_decide_eq_false h
  omega

theorem pyMax_spec :
    ∀ (xs : List ClosedNote) (best : ClosedNote),
      pyMax chordLt best xs ∈ best :: xs ∧
        ∀ x ∈ best :: xs,
          x.vel < (pyMax chordLt best xs).vel ∨
            (x.vel = (pyMax chordLt best xs).vel ∧ x.pitch ≤ (pyMax chordLt best xs).pitch)
  | [], best => by
    constructor
    · simp [pyMax]
    · intro x hx
      have hxb : x = best := by simpa using hx
      subst hxb
      exact Or.inr ⟨rfl, le_rfl⟩
  | y :: ys, best => by
    rw [show pyMax chordLt best (y :: ys) =
        pyMax chordLt (if chordLt best y then y else best) ys from rfl]
    have ih := pyMax_spec ys (if chordLt best y then y else best)
    constructor
    · rcases List.mem_cons.mp ih.1 with h | h
      · by_cases hc : chordLt best y = true
        · rw [h, if_pos hc]
          simp
        · rw [h, if_neg hc]
          simp
      · exact List.mem_cons_of_mem _ (List.mem_cons_of_mem _ h)
    · intro x hx
      have hx2 : x = best ∨ x = y ∨ x ∈ ys := by simpa using hx
      have hmid := ih.2 (if chordLt best y then y else best) (List.mem_cons_self _ _)
      rcases hx2 with rfl | rfl | h
      · refine chordLe_trans ?_ hmid
        by_cases hc : chordLt x y = true
        · rw [if_pos hc]
          exact chordLt_true hc
        · rw [if_neg hc]
          omega
      · refine chordLe_trans ?_ hmid
        by_cases hc : chordLt best x = true
        · rw [if_pos hc]
          omega
        · rw [if_neg hc]
          exact chordLt_false (by simpa using hc)
      · exact ih.2 x (List.mem_cons_of_mem _ h)

/-- Claim C7: within a chord group the reducer selects exactly one
winner, the member with maximum velocity and, among equal velocities,
maximum pitch.  `chooseChord` is a pure function, so the selection is
deterministic: identical inputs always give the identical winner (when
even the (velocity, pitch) keys tie, Python's `max` — and `pyMax` —
keeps the first such member). -/
theorem c7_chord_selection (g : List ClosedNote) (c : ClosedNote)
    (h : chooseChord g = some c) :
    c ∈ g ∧ ∀ x ∈ g, x.vel < c.vel ∨ (x.vel = c.vel ∧ x.pitch ≤ c.pitch) := by
  rcases g with _ | ⟨a, as⟩
  · simp [chooseChord] at h
  · have hc : pyMax chordLt a as = c := by simpa [chooseChord] using h
    rw [← hc]
    exact pyMax_spec as a

/-- Witness for `c7_chord_selection` at a concrete chord: two notes of
equal velocity starting together; the higher pitch wins. -/
theorem c7_chord_selection_witness :
    chooseChord [⟨60, 0, 4, 100⟩, ⟨64, 0, 4, 100⟩] = some ⟨64, 0, 4, 100⟩ ∧
      (⟨64, 0, 4, 100⟩ : ClosedNote) ∈ [(⟨60, 0, 4, 100⟩ : ClosedNote), ⟨64, 0, 4, 100⟩] ∧
      ((100 : ℕ) < 100 ∨ ((100 : ℕ) = 100 ∧ (60 : ℕ) ≤ 64)) :=
  ⟨by decide,
   (c7_chord_selection [⟨60, 0, 4, 100⟩, ⟨64, 0, 4, 100⟩] ⟨64, 0, 4, 100⟩ (by decide)).1,
   (c7_chord_selection [⟨60, 0, 4, 100⟩, ⟨64, 0, 4, 100⟩] ⟨64, 0, 4, 100⟩ (by decide)).2
     ⟨60, 0, 4, 100⟩ (by decide)⟩

/-! ## Claim C9 -/

/-- Claim C9: the reducer recovers from malformed streams without a
fatal error.  A `NoteEnd` whose pitch is not in the active table leaves
the loop state completely unchanged (the event is ignored), and a note
still active at stream end produces no timeline segment: the stream
consisting only of `NoteStart(60, velocity 100, tick 0)` yields zero
segments. -/
theorem c9_malformed_recovery (p : ℕ) (t : ℤ) (active : List (ℕ × ℤ × ℕ)) (tempo : ℤ)
    (results : List ClosedNote) (h : alistGet p active = none) :
    reduceStep ⟨active, tempo, results⟩ (t, Msg.noteOff p) = ⟨active, tempo, results⟩ ∧
      extract_monophonic [(0, Msg.noteOn 60 100)] = ([], 500000) := by
  constructor
  · simp [reduceStep, closeNote, h]
  · decide

/-- Witness for `c9_malformed_recovery` at a concrete input (a stray
note-off on an empty active table). -/
theorem c9_malformed_recovery_witness :
    reduceStep ⟨[], 500000, []⟩ (5, Msg.noteOff 60) = ⟨[], 500000, []⟩ ∧
      extract_monophonic [(0, Msg.noteOn 60 100)] = ([], 500000) :=
  c9_malformed_recovery 60 5 [] 500000 [] rfl

/-! ## Claim C10 -/

theorem digitCh_isDigit {d : ℕ} (hd : d < 10) : isDigitCh (digitCh d) = true := by
  interval_cases d <;> decide

theorem digitCh_toNat {d : ℕ} (hd : d < 10) : (digitCh d).toNat - 48 = d := by
  interval_cases d <;> decide

theorem decChars_ne_nil (n : ℕ) : decChars n ≠ [] := by
  by_cases h : n = 0
  · simp [decChars, h]
  · have hd : Nat.digits 10 n ≠ [] := Nat.digits_ne_nil_iff_ne_zero.mpr h
    simp only [decChars, h, if_false]
    simp [hd]

theorem decChars_all_digit (n : ℕ) : ∀ c ∈ decChars n, isDigitCh c = true := by
  intro c hc
  by_cases h : n = 0
  · have : c = '0' := by simpa [decChars, h] using hc
    subst this
    decide
  · simp only [decChars, h, if_false, List.mem_reverse, List.mem_map] at hc
    obtain ⟨d, hd, rfl⟩ := hc
    exact digitCh_isDigit (Nat.digits_lt_base (by norm_num) hd)

theorem digit_not_space {c : Char} (h : isDigitCh c = true) : isSpaceCh c = false := by
  have h1 := of_decide_eq_true h
  rw [isSpaceCh]
  apply decide_eq_false
  rintro (rfl | rfl)
  · exact absurd h1 (by decide)
  · exact absurd h1 (by decide)

theorem foldr_digits_eq (l : List ℕ) (h : ∀ d ∈ l, d < 10) :
    l.foldr (fun d a => 10 * a + ((digitCh d).toNat - 48)) 0 = Nat.ofDigits 10 l := by
  induction l with
  | nil => simp [Nat.ofDigits]
  | cons d ds ih =>
    rw [List.foldr_cons, ih (fun x hx => h x (List.mem_cons_of_mem _ hx)),
      Nat.ofDigits_cons, digitCh_toNat (h d (List.mem_cons_self _ _))]
    ring

theorem digitsVal_decChars (n : ℕ) : digitsVal (decChars n) = n := by
  by_cases h : n = 0
  · rw [h]
    decide
  · rw [digitsVal, decChars, if_neg h, List.foldl_reverse, List.foldr_map]
    exact (foldr_digits_eq _ (fun d hd => Nat.digits_lt_base (by norm_num) hd)).trans
      (Nat.ofDigits_digits 10 n)

theorem twdw_app {p : Char → Bool} :
    ∀ (ds : List Char), (∀ c ∈ ds, p c = true) →
      ∀ (c : Char) (rest : List Char), p c = false →
        (ds ++ c :: rest).takeWhile p = ds ∧ (ds ++ c :: rest).dropWhile p = c :: rest
  | [], _, c, rest, hc => by
    simp [List.takeWhile_cons, List.dropWhile_cons, hc]
  | d :: ds, h, c, rest, hc => by
    have ih := twdw_app ds (fun x hx => h x (List.mem_cons_of_mem _ hx)) c rest hc
    have hd := h d (List.mem_cons_self _ _)
    simp [List.takeWhile_cons, List.dropWhile_cons, hd, ih.1, ih.2]

theorem dropWhile_space_decChars (n : ℕ) (rest : List Char) :
    (decChars n ++ rest).dropWhile isSpaceCh = decChars n ++ rest := by
  obtain ⟨a, t, hat⟩ := List.exists_cons_of_ne_nil (decChars_ne_nil n)
  have ha : a ∈ decChars n := by rw [hat]; exact List.mem_cons_self _ _
  have := digit_not_space (decChars_all_digit n a ha)
  rw [hat, List.cons_append, List.dropWhile_cons, this]
  simp

theorem matchEntryAt_entry (nf nd : ℕ) :
    matchEntryAt ('\x7b' :: (decChars nf ++ ',' :: ' ' :: (decChars nd ++ ['\x7d', ','])))
      = some (nf, nd) := by
  have h1 := dropWhile_space_decChars nf (',' :: ' ' :: (decChars nd ++ ['\x7d', ',']))
  have h2 := (twdw_app (decChars nf) (decChars_all_digit nf) ','
    (' ' :: (decChars nd ++ ['\x7d', ','])) (by decide)).1
  have h3 := (twdw_app (decChars nf) (decChars_all_digit nf) ','
    (' ' :: (decChars nd ++ ['\x7d', ','])) (by decide)).2
  have h5 := (twdw_app (decChars nd) (decChars_all_digit nd) '\x7d' [','] (by decide)).1
  have h6 := (twdw_app (decChars nd) (decChars_all_digit nd) '\x7d' [','] (by decide)).2
  have h4 := dropWhile_space_decChars nd ('\x7d' :: [','])
  obtain ⟨a, t, hat⟩ := List.exists_cons_of_ne_nil (decChars_ne_nil nf)
  obtain ⟨b, u, hbu⟩ := List.exists_cons_of_ne_nil (decChars_ne_nil nd)
  have hne1 : (decChars nf).isEmpty = false := by rw [hat]; rfl
  have hne2 : (decChars nd).isEmpty = false := by rw [hbu]; rfl
  have hsp1 : isSpaceCh ',' = false := by decide
  have hsp2 : isSpaceCh ' ' = true := by decide
  have hsp3 : isSpaceCh '\x7d' = false := by decide
  simp only [matchEntryAt, if_pos rfl, h1, h2, h3, hne1, Bool.false_eq_true, if_false,
    List.dropWhile_cons, hsp1, if_pos rfl, hsp2, if_true, h4, h5, h6, hne2,
    digitsVal_decChars]
  simp [hsp3]

theorem matchEntryAt_not_brace {c : Char} (cs : List Char) (h : ¬ c = '\x7b') :
    matchEntryAt (c :: cs) = none := by
  simp [matchEntryAt, h]

theorem searchEntry_cons_eq (c : Char) (cs : List Char) :
    searchEntry (c :: cs) = match matchEntryAt (c :: cs) with
      | some r => some r
      | none => searchEntry cs := rfl

theorem searchEntry_cons_of_none {c : Char} {cs : List Char}
    (h : matchEntryAt (c :: cs) = none) : searchEntry (c :: cs) = searchEntry cs := by
  rw [searchEntry_cons_eq, h]

theorem searchEntry_cons_of_some {c : Char} {cs : List Char} {r : ℕ × ℕ}
    (h : matchEntryAt (c :: cs) = some r) : searchEntry (c :: cs) = some r := by
  rw [searchEntry_cons_eq, h]

theorem searchEntry_entryLine (f d : ℤ) (hf : 0 ≤ f) (hd0 : 0 ≤ d) (hd : d ≤ 65535) :
    searchEntry (entryLine (f, d)) = some (f.toNat, d.toNat) := by
  have hcl : clampDur d = d := by
    simp only [clampDur]
    rw [if_neg (by omega : ¬ d < 0), if_neg (by omega : ¬ (65535 : ℤ) < d)]
  have hif : intChars f = decChars f.toNat := by
    rw [intChars, if_neg (by omega : ¬ f < 0)]
  have hidd : intChars (clampDur d) = decChars d.toNat := by
    rw [hcl, intChars, if_neg (by omega : ¬ d < 0)]
  have hme := matchEntryAt_entry f.toNat d.toNat
  simp only [entryLine, hif, hidd]
  rw [searchEntry_cons_of_none (matchEntryAt_not_brace _ (by decide)),
    searchEntry_cons_of_none (matchEntryAt_not_brace _ (by decide))]
  exact searchEntry_cons_of_some hme

theorem filterMap_entryLines (notes : List (ℤ × ℤ)) (h : notes.all validEntry = true) :
    (notes.map entryLine).filterMap
      (fun l => (searchEntry l).map (fun fd => ((fd.1 : ℤ), (fd.2 : ℤ)))) = notes := by
  induction notes with
  | nil => simp
  | cons fd rest ih =>
    have hsplit : validEntry fd = true ∧ rest.all validEntry = true := by
      simpa [List.all_cons] using h
    have hv := of_decide_eq_true hsplit.1
    have hse : searchEntry (entryLine fd) = some (fd.1.toNat, fd.2.toNat) :=
      searchEntry_entryLine fd.1 fd.2 hv.1 hv.2.1 hv.2.2
    have hfa : (fun l => Option.map (fun fd => ((fd.1 : ℤ), (fd.2 : ℤ))) (searchEntry l))
        (entryLine fd) = some fd := by
      show Option.map (fun fd => ((fd.1 : ℤ), (fd.2 : ℤ))) (searchEntry (entryLine fd))
        = some fd
      rw [hse]
      show some ((fd.1.toNat : ℤ), (fd.2.toNat : ℤ)) = some fd
      rw [Int.toNat_of_nonneg hv.1, Int.toNat_of_nonneg hv.2.1]
    rw [List.map_cons,
      @List.filterMap_cons_some (List Char) (ℤ × ℤ)
        (fun l => Option.map (fun fd => ((fd.1 : ℤ), (fd.2 : ℤ))) (searchEntry l))
        (entryLine fd) (List.map entryLine rest) fd hfa,
      ih hsplit.2]

/-- Claim C10: the emit/parse round trip of `simplify_header`.  For
every list of `(freq, duration)` pairs with non-negative entries and
durations at most 65535 (so the emitter's clamp is the identity),
scanning the emitted header file with the entry regex returns exactly
the original list, in order: none of the fixed header or footer lines
matches the pattern, and each entry line parses back to its pair. -/
theorem c10_roundtrip (notes : List (ℤ × ℤ)) (h : notes.all validEntry = true) :
    parse_header (emit_header notes) = notes := by
  rw [emit_header, parse_header, List.filterMap_append, List.filterMap_append]
  have hh : headerLines.filterMap
      (fun l => (searchEntry l).map (fun fd => ((fd.1 : ℤ), (fd.2 : ℤ)))) = [] := by decide
  have hf : footerLines.filterMap
      (fun l => (searchEntry l).map (fun fd => ((fd.1 : ℤ), (fd.2 : ℤ)))) = [] := by decide
  rw [hh, hf, List.nil_append, List.append_nil]
  exact filterMap_entryLines notes h

/-- Witness for `c10_roundtrip` at a concrete note list. -/
theorem c10_roundtrip_witness :
    ([((440 : ℤ), (250 : ℤ)), (0, 0), (7040, 65535)].all validEntry = true) ∧
      parse_header (emit_header [((440 : ℤ), (250 : ℤ)), (0, 0), (7040, 65535)]) =
        [((440 : ℤ), (250 : ℤ)), (0, 0), (7040, 65535)] :=
  ⟨by decide, c10_roundtrip [((440 : ℤ), (250 : ℤ)), (0, 0), (7040, 65535)] (by decide)⟩
